import Mathlib

/-!
# gpu-scraper: aggregator, extraction and link canonicalisation

A shallow embedding of `main.go`.

* Go strings are modelled as Lean `String`s (sequences of runes).
* The global `items map[string]struct{}` only ever holds the empty struct, so it
  is modelled by its key set, a `Finset String`.
* `fmt`, `regexp`, `strings`, `goquery`, `colly` and `toast` are libraries; the
  parts of them that `main.go` calls are modelled below, next to their callers.
-/

namespace GpuScraper

/-! ## Data model -/

/-- The record `ProductInfo` sent on the channel. -/
structure ProductInfo where
  link : String
  title : String
  inStock : Bool
deriving DecidableEq, Repr

/-- The fields of `toast.Notification` that `notify` fills in. -/
structure Notification where
  appID : String
  title : String
  activationArguments : String
deriving DecidableEq, Repr

/-- The arguments of one call `notify(url, title)`. -/
structure NotifyCall where
  url : String
  title : String
deriving DecidableEq, Repr

/-- What the program cannot decide by itself: the formatted wall-clock time and the
outcome of `notification.Push()` (`none` is a nil error) at the `k`-th call of
`notify`. -/
structure Env where
  now : Nat → String
  push : Nat → Notification → Option String

/-- The global variable `items` together with the observable effects of the
aggregator: the text written to standard output, the notifications handed to
`Push`, and (as a ghost trace) the arguments of each call of `notify`. -/
structure World where
  items : Finset String
  stdout : String
  toasts : List Notification
  calls : List NotifyCall
deriving DecidableEq

/-- The state at `items = make(map[string]struct{})`. -/
def World.init : World := ⟨∅, "", [], []⟩

/-! ## `fmt.Sprintf("%.80s", title)` -/

/-- The loop of `fmt.truncateString`: `for i := range s { n--; if n < 0 { return s[:i] } }`,
with `seen` the runes before index `i` (reversed) and `rest` those from `i` on.
Falling off the loop returns `s` whole. -/
def truncateLoop : Int → List Char → List Char → List Char
  | _, seen, [] => seen.reverse
  | n, seen, c :: rest =>
    if n - 1 < 0 then seen.reverse else truncateLoop (n - 1) (c :: seen) rest

/-- The verb `%.<prec>s` applied to `s`. -/
def sprintfPrecS (prec : Nat) (s : String) : String :=
  ⟨truncateLoop prec [] s.data⟩

/-! ## `strings.ReplaceAll(url, "&", "&amp;")` -/

/-- The call `strings.ReplaceAll(s, "&", "&amp;")`: the pattern is a single rune, so
every occurrence is replaced in place. -/
def escapeAmp (s : String) : String :=
  ⟨s.data.flatMap (fun c => if c = '&' then "&amp;".data else [c])⟩

/-! ## `notify` -/

/-- The function `notify(url, title)`. -/
def notify (env : Env) (w : World) (url title : String) : World :=
  let k := w.calls.length
  let title80 := sprintfPrecS 80 title
  let printed := w.stdout ++ env.now k ++ "\n" ++ title80 ++ "\n" ++ url ++ "\n\n"
  let notification : Notification :=
    { appID := "GPU Scraper", title := title80, activationArguments := escapeAmp url }
  let printed :=
    match env.push k notification with
    | none => printed
    | some err => printed ++ err ++ "\n"
  { items := w.items
    stdout := printed
    toasts := w.toasts ++ [notification]
    calls := w.calls ++ [⟨url, title⟩] }

/-! ## The aggregator loop of `main` -/

/-- One iteration of the `for` loop of `main` after `p := <-ch`. -/
def iteration (env : Env) (w : World) (p : ProductInfo) : World :=
  let exists_ := decide (p.link ∈ w.items)
  if p.inStock then
    if !exists_ then
      notify env { w with items := insert p.link w.items } p.link p.title
    else w
  else if exists_ then
    { w with items := w.items.erase p.link }
  else w

/-- The loop of `main` run over the records `ps` received, in order. -/
def aggregate (env : Env) (w : World) (ps : List ProductInfo) : World :=
  ps.foldl (iteration env) w

/-! ## `regexp`

The three patterns of `main.go` use literals, `.`, `+`, `|`, a group and `$`. A match
is searched leftmost-first, as Go does: at the leftmost position where the pattern
matches at all, the alternative a backtracking search would find first. -/

/-- Syntax of the patterns used. -/
inductive Regex where
  /-- A literal rune. -/
  | char (c : Char)
  /-- The pattern `.` without the `s` flag: any rune but a newline. -/
  | anyNotNL
  /-- The pattern `$` without the `m` flag: the end of the text. -/
  | endText
  /-- The empty pattern. -/
  | empty
  /-- Concatenation. -/
  | cat (a b : Regex)
  /-- Alternation `a|b`, preferring `a`. -/
  | alt (a b : Regex)
  /-- Greedy repetition `a+`. -/
  | plus (a : Regex)
deriving Repr

/-- The pattern matching exactly the text `s`. -/
def Regex.str (s : String) : Regex :=
  s.data.foldr (fun c r => Regex.cat (Regex.char c) r) Regex.empty

/-- The remainders left by `a+` on `s`, given the remainders `f` of one round of `a`:
a further round is tried before stopping (greedy). -/
def Regex.plusEnds (f : List Char → List (List Char)) : Nat → List Char → List (List Char)
  | 0, _ => []
  | fuel + 1, s =>
    (f s).flatMap fun t =>
      (if t.length < s.length then Regex.plusEnds f fuel t else []) ++ [t]

/-- All the ways the pattern matches a prefix of `s`, each given by the text left
after the match, in order of preference. -/
def Regex.ends : Regex → List Char → List (List Char)
  | .char c, s =>
    match s with
    | [] => []
    | x :: t => if x = c then [t] else []
  | .anyNotNL, s =>
    match s with
    | [] => []
    | x :: t => if x = '\n' then [] else [t]
  | .endText, s => if s = [] then [[]] else []
  | .empty, s => [s]
  | .cat a b, s => (Regex.ends a s).flatMap fun t => Regex.ends b t
  | .alt a b, s => Regex.ends a s ++ Regex.ends b s
  | .plus a, s => Regex.plusEnds (fun t => Regex.ends a t) (s.length + 1) s

/-- The preferred match starting at the head of `s`, if any: the text after it. -/
def Regex.matchAt (re : Regex) (s : List Char) : Option (List Char) :=
  (re.ends s).head?

/-- The loop of `Regexp.replaceAll` for a replacement text without `$`: `s` is the
source from the search position on, `abut` says that the previous match ended
exactly here (an empty match there is not replaced). The rune at a position without
a match is copied; the loop always advances by at least one rune. -/
def Regex.replaceAllFrom (re : Regex) (repl : List Char) :
    Nat → Bool → List Char → List Char
  | 0, _, s => s
  | fuel + 1, abut, s =>
    match re.matchAt s, s with
    | some rest, c :: t =>
      if rest.length < (c :: t).length then
        repl ++ Regex.replaceAllFrom re repl fuel true rest
      else
        (if abut then [] else repl) ++ c :: Regex.replaceAllFrom re repl fuel false t
    | some _, [] => if abut then [] else repl
    | none, c :: t => c :: Regex.replaceAllFrom re repl fuel false t
    | none, [] => []

/-- The method `re.ReplaceAllString(src, repl)`, for `repl` without `$`. -/
def Regex.replaceAllString (re : Regex) (src repl : String) : String :=
  ⟨re.replaceAllFrom repl.data (src.data.length + 1) false src.data⟩

/-- The text of the leftmost match in `s`, if there is a match. -/
def Regex.findFrom (re : Regex) : List Char → Option (List Char)
  | [] => (re.matchAt []).map fun _ => []
  | c :: t =>
    match re.matchAt (c :: t) with
    | some rest => some ((c :: t).take ((c :: t).length - rest.length))
    | none => Regex.findFrom re t

/-- The method `re.FindString(s)`: the empty string when there is no match. -/
def Regex.findString (re : Regex) (s : String) : String :=
  ⟨(re.findFrom s.data).getD []⟩

/-- The pattern `regexp.MustCompile("&sid=.+$")`. -/
def sidReg : Regex :=
  .cat (Regex.str "&sid=") (.cat (.plus .anyNotNL) .endText)

/-- The pattern `regexp.MustCompile("/ref=.+$")`. -/
def refReg : Regex :=
  .cat (Regex.str "/ref=") (.cat (.plus .anyNotNL) .endText)

/-- The pattern `regexp.MustCompile("RTX (3060 Ti|3070|3070 Ti|3080)")`. -/
def gpuReg : Regex :=
  .cat (Regex.str "RTX ")
    (.alt (Regex.str "3060 Ti") (.alt (Regex.str "3070")
      (.alt (Regex.str "3070 Ti") (Regex.str "3080"))))

/-! ## `strings.TrimSpace` -/

/-- The predicate `unicode.IsSpace`. -/
def isSpace (c : Char) : Bool :=
  (0x09 ≤ c.toNat && c.toNat ≤ 0x0D) || c.toNat = 0x20 ||
  c.toNat = 0x85 || c.toNat = 0xA0 || c.toNat = 0x1680 ||
  (0x2000 ≤ c.toNat && c.toNat ≤ 0x200A) ||
  c.toNat = 0x2028 || c.toNat = 0x2029 || c.toNat = 0x202F || c.toNat = 0x205F ||
  c.toNat = 0x3000

/-- The function `strings.TrimSpace`. -/
def trimSpace (s : String) : String :=
  ⟨((s.data.dropWhile isSpace).reverse.dropWhile isSpace).reverse⟩

/-! ## The queryable document (`goquery`, `colly`) -/

/-- The tree-query capability `visit` relies on, over a type `Node` of element nodes. -/
structure Dom (Node : Type) where
  /-- The descendants of a node that match a selector, in document order. -/
  find : String → Node → List Node
  /-- The element children of a node, in document order. -/
  children : Node → List Node
  /-- The value of an attribute of a node, if the node has it. -/
  attr : Node → String → Option String
  /-- The text of a node and its descendants. -/
  text : Node → String

/-- A `goquery.Selection`: the matched nodes, in document order. -/
abbrev Selection (Node : Type) := List Node

/-- The method `Selection.Attr`: the attribute of the first node of the selection;
`("", false)` when the selection is empty or that node lacks the attribute. -/
def Selection.attr {Node : Type} (dom : Dom Node) (s : Selection Node) (name : String) :
    String × Bool :=
  match s with
  | [] => ("", false)
  | n :: _ =>
    match dom.attr n name with
    | some v => (v, true)
    | none => ("", false)

/-- The method `Selection.Text`: the combined text of all nodes of the selection. -/
def Selection.text {Node : Type} (dom : Dom Node) (s : Selection Node) : String :=
  String.join (s.map dom.text)

/-! ## `SearchConfig` and `visit` -/

/-- The struct `SearchConfig`; a nil `linkTransform` is `none`. -/
structure SearchConfig (Node : Type) where
  url : String
  resultsSel : String
  linkSel : String
  stockSel : String
  hasStock : Selection Node → Bool
  linkTransform : Option (String → String)

/-- The record that the callback of `productElements.Each` sends for the entry `s`. -/
def visitEntry {Node : Type} (dom : Dom Node) (config : SearchConfig Node) (s : Node) :
    ProductInfo :=
  let productLink := dom.find config.linkSel s
  let link := (Selection.attr dom productLink "href").1
  let link :=
    match config.linkTransform with
    | some f => f link
    | none => link
  let stockIndicator := dom.find config.stockSel s
  let hasStock := config.hasStock stockIndicator
  { link := link, title := Selection.text dom productLink, inStock := hasStock }

/-- The `OnHTML` callback: the records sent for one element `e` matched by
`config.resultsSel`, in the order in which they are sent. -/
def onHTML {Node : Type} (dom : Dom Node) (config : SearchConfig Node) (e : Node) :
    List ProductInfo :=
  (dom.children e).map (visitEntry dom config)

/-- One round of the loop of `visit` on the fetched document `doc`: the callback runs
for each element that `config.resultsSel` matches. The result is what is sent on
the channel, in order. -/
def visitCycle {Node : Type} (dom : Dom Node) (config : SearchConfig Node) (doc : Node) :
    List ProductInfo :=
  (dom.find config.resultsSel doc).flatMap (onHTML dom config)

/-! ## The three sources configured in `main` -/

/-- The `linkTransform` of the canadacomputers source. -/
def canadacomputersLinkTransform (link : String) : String :=
  sidReg.replaceAllString link ""

/-- The `linkTransform` of the amazon source. -/
def amazonLinkTransform (link : String) : String :=
  "https://www.amazon.ca" ++ refReg.replaceAllString link ""

/-- The first `SearchConfig` of `main`. -/
def newegg {Node : Type} (dom : Dom Node) : SearchConfig Node where
  url := "https://www.newegg.ca/p/pl?N=100007708%20601359415%20601357250%20601357247%208000&Order=1"
  resultsSel := ".items-grid-view"
  linkSel := ".item-container > .item-info > .item-title"
  stockSel := ".item-promo"
  hasStock := fun s => trimSpace (Selection.text dom s) != "OUT OF STOCK"
  linkTransform := none

/-- The second `SearchConfig` of `main`. -/
def canadacomputers {Node : Type} (dom : Dom Node) : SearchConfig Node where
  url := "https://www.canadacomputers.com/index.php?cPath=43&sf=:3_5,3_6,3_7&mfr=&pr="
  resultsSel := "div[id='product-list']"
  linkSel := ".productTemplate_title > a"
  stockSel := "button"
  hasStock := fun s => trimSpace (Selection.text dom s) == "Add to Cart"
  linkTransform := some canadacomputersLinkTransform

/-- The third `SearchConfig` of `main`. -/
def amazon {Node : Type} (dom : Dom Node) : SearchConfig Node where
  url := "https://www.amazon.ca/s?i=electronics&bbn=677243011&rh=n%3A677243011%2Cp_6%3AA3DWYIK6Y9EEQB%2Cp_36%3A60000-&dc&qid=1631712885&rnid=12035759011&ref=sr_nr_p_36_5"
  resultsSel := ".s-search-results"
  linkSel := "h2 > a"
  stockSel := "h2 > a > span"
  hasStock := fun s => gpuReg.findString (Selection.text dom s) != ""
  linkTransform := some amazonLinkTransform

/-! ## Auxiliary definitions

Used to state and prove the properties below; they are not part of `main.go`. -/

/-- Whether `notify` is called while the loop of `main`, started from the empty
`items`, processes the record of index `i` (counted from 0) of `ps`: the trace of
calls grows by one during that iteration. -/
def notifiedAt (env : Env) (ps : List ProductInfo) (i : Nat) : Bool :=
  decide ((aggregate env World.init (ps.take (i + 1))).calls.length =
    (aggregate env World.init (ps.take i)).calls.length + 1)

/-- The positions, counted from 1, of the records of `ps` at which `notify` is called. -/
def notifyPositions (env : Env) (ps : List ProductInfo) : List Nat :=
  ((List.range ps.length).filter (notifiedAt env ps)).map (· + 1)

/-- An environment in which every `Push` succeeds. -/
def Env.pushOk : Env := ⟨fun _ => "Jan 2, 3:04PM", fun _ _ => none⟩

/-- An environment in which every `Push` returns an error. -/
def Env.pushFails : Env := ⟨fun _ => "Jan 2, 3:04PM", fun _ _ => some "toast: push failed"⟩

/-- The pattern that is the literal text `lit` followed by `.+$`. -/
def litTail (lit : List Char) : Regex :=
  .cat (lit.foldr (fun c r => Regex.cat (Regex.char c) r) Regex.empty)
    (.cat (.plus .anyNotNL) .endText)

/-- Whether `s` is `lit` followed by at least one rune and no newline. -/
def tailMatch (lit s : List Char) : Bool :=
  lit.isPrefixOf s && !(s.drop lit.length).isEmpty && !(s.drop lit.length).contains '\n'

/-- The text `s` cut where the first suffix of the form `lit`, one or more runes,
none of them a newline, begins. -/
def stripTail (lit : List Char) : List Char → List Char
  | [] => []
  | c :: t => if tailMatch lit (c :: t) then [] else c :: stripTail lit t

/-- The record the specification describes for an entry `s`: the link is the `href`
of the first node matched by `linkSel` (the empty string when there is no such node
or it has no `href`), passed through `linkTransform` when there is one; the title is
the text matched by `linkSel`; the stock flag is `hasStock` of what `stockSel`
matches. -/
def entrySpec {Node : Type} (dom : Dom Node) (config : SearchConfig Node) (s : Node) :
    ProductInfo where
  link :=
    let href :=
      match dom.find config.linkSel s with
      | [] => ""
      | n :: _ => (dom.attr n "href").getD ""
    match config.linkTransform with
    | some f => f href
    | none => href
  title := String.join ((dom.find config.linkSel s).map dom.text)
  inStock := config.hasStock (dom.find config.stockSel s)

/-- A result page in the shape the amazon source expects, its nodes numbered: the
document `0` holds the list `1` with the entries `2` and `3`; `4` and `5` are their
link nodes, `6` and `7` the spans inside them. Only the link node `4` has an `href`. -/
def Dom.samplePage : Dom Nat where
  find := fun sel n =>
    if sel = ".s-search-results" ∧ n = 0 then [1]
    else if sel = "h2 > a" ∧ n = 2 then [4]
    else if sel = "h2 > a" ∧ n = 3 then [5]
    else if sel = "h2 > a > span" ∧ n = 2 then [6]
    else if sel = "h2 > a > span" ∧ n = 3 then [7]
    else []
  children := fun n =>
    if n = 0 then [1] else if n = 1 then [2, 3] else if n = 2 then [4]
    else if n = 3 then [5] else if n = 4 then [6] else if n = 5 then [7] else []
  attr := fun n name =>
    if n = 4 ∧ name = "href" then some "/dp/B08X/ref=sr_1_1" else none
  text := fun n =>
    if n = 2 ∨ n = 4 ∨ n = 6 then "MSI RTX 3070 Gaming"
    else if n = 3 ∨ n = 5 ∨ n = 7 then "GT 710"
    else if n = 0 ∨ n = 1 then "MSI RTX 3070 GamingGT 710"
    else ""

/-! ## Facts about `notify` and one iteration -/

theorem notify_items (env : Env) (w : World) (url title : String) :
    (notify env w url title).items = w.items := rfl

theorem notify_calls (env : Env) (w : World) (url title : String) :
    (notify env w url title).calls = w.calls ++ [⟨url, title⟩] := rfl

theorem notify_toasts (env : Env) (w : World) (url title : String) :
    (notify env w url title).toasts = w.toasts ++
      [{ appID := "GPU Scraper", title := sprintfPrecS 80 title,
         activationArguments := escapeAmp url }] := rfl

theorem iteration_items (env : Env) (w : World) (p : ProductInfo) :
    (iteration env w p).items =
      if p.inStock then insert p.link w.items else w.items.erase p.link := by
  unfold iteration
  by_cases hs : p.inStock = true <;> by_cases hm : p.link ∈ w.items <;>
    simp [hs, hm, notify_items]

theorem iteration_calls (env : Env) (w : World) (p : ProductInfo) :
    (iteration env w p).calls =
      w.calls ++ (if p.inStock = true ∧ p.link ∉ w.items then [⟨p.link, p.title⟩] else []) := by
  unfold iteration
  by_cases hs : p.inStock = true <;> by_cases hm : p.link ∈ w.items <;>
    simp [hs, hm, notify_calls]

theorem mem_iteration_items (env : Env) (w : World) (p : ProductInfo) (L : String) :
    L ∈ (iteration env w p).items ↔
      (p.link = L ∧ p.inStock = true) ∨ (p.link ≠ L ∧ L ∈ w.items) := by
  rw [iteration_items]
  by_cases hs : p.inStock = true <;> by_cases hl : p.link = L
  · subst hl; simp [hs]
  · have : L ≠ p.link := fun h => hl h.symm
    simp [hs, hl, this]
  · subst hl; simp [hs]
  · have : L ≠ p.link := fun h => hl h.symm
    simp [hs, hl, this]

theorem aggregate_nil (env : Env) (w : World) : aggregate env w [] = w := rfl

theorem aggregate_cons (env : Env) (w : World) (p : ProductInfo) (ps : List ProductInfo) :
    aggregate env w (p :: ps) = aggregate env (iteration env w p) ps := rfl

theorem aggregate_append (env : Env) (w : World) (ps qs : List ProductInfo) :
    aggregate env w (ps ++ qs) = aggregate env (aggregate env w ps) qs := by
  simp [aggregate, List.foldl_append]

/-- Splitting a list at an element with property `P` followed by a tail with
property `Q`: either the head is that element, or the split is in the tail. -/
theorem split_cons_iff {α : Type} (P : α → Prop) (Q : List α → Prop) (p : α) (ps : List α) :
    (∃ pre r post, p :: ps = pre ++ r :: post ∧ P r ∧ Q post) ↔
      (P p ∧ Q ps) ∨ ∃ pre r post, ps = pre ++ r :: post ∧ P r ∧ Q post := by
  constructor
  · rintro ⟨pre, r, post, h, hP, hQ⟩
    cases pre with
    | nil =>
      simp only [List.nil_append, List.cons.injEq] at h
      obtain ⟨rfl, rfl⟩ := h
      exact Or.inl ⟨hP, hQ⟩
    | cons a pre =>
      simp only [List.cons_append, List.cons.injEq] at h
      obtain ⟨rfl, rfl⟩ := h
      exact Or.inr ⟨pre, r, post, rfl, hP, hQ⟩
  · rintro (⟨hP, hQ⟩ | ⟨pre, r, post, rfl, hP, hQ⟩)
    · exact ⟨[], p, ps, rfl, hP, hQ⟩
    · exact ⟨p :: pre, r, post, rfl, hP, hQ⟩

/-- Membership after a run from any state: decided by the last record with the link,
and by the starting state when there is none. -/
theorem mem_aggregate_items (env : Env) (L : String) (ps : List ProductInfo) (w : World) :
    L ∈ (aggregate env w ps).items ↔
      (∃ pre r post, ps = pre ++ r :: post ∧ (r.link = L ∧ r.inStock = true) ∧
        ∀ q ∈ post, q.link ≠ L) ∨
      (L ∈ w.items ∧ ∀ q ∈ ps, q.link ≠ L) := by
  induction ps generalizing w with
  | nil => simp [aggregate_nil]
  | cons p ps ih =>
    have hsplit := split_cons_iff (fun r : ProductInfo => r.link = L ∧ r.inStock = true)
      (fun post => ∀ q ∈ post, q.link ≠ L) p ps
    simp only at hsplit
    rw [aggregate_cons, ih, mem_iteration_items, hsplit]
    simp only [List.mem_cons, forall_eq_or_imp]
    generalize (∃ pre r post, ps = pre ++ r :: post ∧ (r.link = L ∧ r.inStock = true) ∧
      ∀ q ∈ post, q.link ≠ L) = A
    generalize (∀ q ∈ ps, q.link ≠ L) = N
    by_cases hl : p.link = L <;> simp [hl]; tauto

/-- C1 (reducer correctness). After the aggregator loop has processed the records
`ps` from the empty `items`, a link `L` is a key of `items` exactly when some record
of `ps` has link `L` and the last such record has `inStock = true`; in particular a
link that never occurs is absent. -/
theorem reducer_correct (env : Env) (ps : List ProductInfo) (L : String) :
    L ∈ (aggregate env World.init ps).items ↔
      ∃ pre r post, ps = pre ++ r :: post ∧ r.link = L ∧ r.inStock = true ∧
        ∀ q ∈ post, q.link ≠ L := by
  rw [mem_aggregate_items]
  simp [World.init, and_assoc]

/-- Absence after a run from any state: the mirror image of `mem_aggregate_items`. -/
theorem not_mem_aggregate_items (env : Env) (L : String) (ps : List ProductInfo) (w : World) :
    L ∉ (aggregate env w ps).items ↔
      (∃ pre r post, ps = pre ++ r :: post ∧ (r.link = L ∧ r.inStock = false) ∧
        ∀ q ∈ post, q.link ≠ L) ∨
      (L ∉ w.items ∧ ∀ q ∈ ps, q.link ≠ L) := by
  induction ps generalizing w with
  | nil => simp [aggregate_nil]
  | cons p ps ih =>
    have hsplit := split_cons_iff (fun r : ProductInfo => r.link = L ∧ r.inStock = false)
      (fun post => ∀ q ∈ post, q.link ≠ L) p ps
    simp only at hsplit
    rw [aggregate_cons, ih, mem_iteration_items, hsplit]
    simp only [List.mem_cons, forall_eq_or_imp]
    generalize (∃ pre r post, ps = pre ++ r :: post ∧ (r.link = L ∧ r.inStock = false) ∧
      ∀ q ∈ post, q.link ≠ L) = A
    generalize (∀ q ∈ ps, q.link ≠ L) = N
    by_cases hl : p.link = L <;> by_cases hs : p.inStock = true <;> simp [hl, hs]; tauto

/-- The key set after a run does not depend on the environment, nor on anything of
the starting state but its key set. -/
theorem aggregate_items_congr (env₁ env₂ : Env) (ps : List ProductInfo) (w₁ w₂ : World)
    (h : w₁.items = w₂.items) :
    (aggregate env₁ w₁ ps).items = (aggregate env₂ w₂ ps).items := by
  induction ps generalizing w₁ w₂ with
  | nil => simpa [aggregate_nil] using h
  | cons p ps ih =>
    rw [aggregate_cons, aggregate_cons]
    apply ih
    rw [iteration_items, iteration_items, h]

/-- C2 (transition table). One iteration of the aggregator loop on a record `p`:
in stock and unknown, the link is added and `notify` is called once, with the link
and title of `p`; in stock and known, nothing changes; out of stock and known, the
link is removed and nothing else changes; out of stock and unknown, nothing changes.
In particular an out-of-stock record that is the first one for its link changes
nothing and notifies nobody. -/
theorem transition_table (env : Env) (w : World) (p : ProductInfo) :
    (p.inStock = true → p.link ∉ w.items →
      iteration env w p =
        notify env { w with items := insert p.link w.items } p.link p.title ∧
      (iteration env w p).items = insert p.link w.items ∧
      (iteration env w p).calls = w.calls ++ [⟨p.link, p.title⟩]) ∧
    (p.inStock = true → p.link ∈ w.items → iteration env w p = w) ∧
    (p.inStock = false → p.link ∈ w.items →
      iteration env w p = { w with items := w.items.erase p.link } ∧
      p.link ∉ (iteration env w p).items) ∧
    (p.inStock = false → p.link ∉ w.items → iteration env w p = w) ∧
    (∀ (pre : List ProductInfo) (linkA : String), (∀ q ∈ pre, q.link ≠ linkA) →
      iteration env (aggregate env World.init pre) ⟨linkA, "T", false⟩ =
        aggregate env World.init pre) := by
  refine ⟨?_, ?_, ?_, ?_, ?_⟩
  · intro hs hm
    have h : iteration env w p =
        notify env { w with items := insert p.link w.items } p.link p.title := by
      simp [iteration, hs, hm]
    exact ⟨h, by rw [h, notify_items], by rw [h, notify_calls]⟩
  · intro hs hm
    simp [iteration, hs, hm]
  · intro hs hm
    have h : iteration env w p = { w with items := w.items.erase p.link } := by
      simp [iteration, hs, hm]
    exact ⟨h, by rw [h]; simp⟩
  · intro hs hm
    simp [iteration, hs, hm]
  · intro pre linkA hpre
    have hm : linkA ∉ (aggregate env World.init pre).items := by
      rw [not_mem_aggregate_items]
      exact Or.inr ⟨by simp [World.init], hpre⟩
    simp [iteration, hm]

/-- C2, witness: the four rows of the table on the link `/p/123`, and an out-of-stock
record for a link not seen before. -/
theorem transition_table_witness :
    (iteration Env.pushOk World.init ⟨"/p/123", "RTX 3070", true⟩).items = {"/p/123"} ∧
    (iteration Env.pushOk World.init ⟨"/p/123", "RTX 3070", true⟩).calls =
      [⟨"/p/123", "RTX 3070"⟩] ∧
    iteration Env.pushOk ⟨{"/p/123"}, "", [], []⟩ ⟨"/p/123", "RTX 3070", true⟩ =
      ⟨{"/p/123"}, "", [], []⟩ ∧
    iteration Env.pushOk ⟨{"/p/123"}, "", [], []⟩ ⟨"/p/123", "RTX 3070", false⟩ =
      ⟨∅, "", [], []⟩ ∧
    iteration Env.pushOk World.init ⟨"/p/123", "RTX 3070", false⟩ = World.init ∧
    iteration Env.pushOk (aggregate Env.pushOk World.init [⟨"/p/9", "GT 710", true⟩])
        ⟨"linkA", "T", false⟩ =
      aggregate Env.pushOk World.init [⟨"/p/9", "GT 710", true⟩] := by
  have h₁ := (transition_table Env.pushOk World.init ⟨"/p/123", "RTX 3070", true⟩).1
    rfl (by decide)
  have h₂ := (transition_table Env.pushOk ⟨{"/p/123"}, "", [], []⟩
    ⟨"/p/123", "RTX 3070", true⟩).2.1 rfl (by decide)
  have h₃ := (transition_table Env.pushOk ⟨{"/p/123"}, "", [], []⟩
    ⟨"/p/123", "RTX 3070", false⟩).2.2.1 rfl (by decide)
  have h₄ := (transition_table Env.pushOk World.init ⟨"/p/123", "RTX 3070", false⟩).2.2.2.1
    rfl (by decide)
  have h₅ := (transition_table Env.pushOk World.init ⟨"/p/123", "RTX 3070", false⟩).2.2.2.2
    [⟨"/p/9", "GT 710", true⟩] "linkA" (by decide)
  refine ⟨?_, ?_, h₂, ?_, h₄, h₅⟩
  · rw [h₁.2.1]; decide
  · rw [h₁.2.2]; decide
  · rw [h₃.1]; decide

/-- C7 (a failing notifier does not affect the state). For a record in stock whose
link is unknown, the link is a key of `items` after the iteration whatever
`notification.Push` returns; two environments that differ in the outcome of `Push`
(or in the clock) give the same `items` and the same calls of `notify`, and the loop
goes on with the next records, again to the same `items`. -/
theorem notifier_failure_keeps_state (env₁ env₂ : Env) (w : World) (p : ProductInfo)
    (hs : p.inStock = true) (hn : p.link ∉ w.items) :
    iteration env₁ w p =
      notify env₁ { w with items := insert p.link w.items } p.link p.title ∧
    iteration env₂ w p =
      notify env₂ { w with items := insert p.link w.items } p.link p.title ∧
    p.link ∈ (iteration env₁ w p).items ∧
    p.link ∈ (iteration env₂ w p).items ∧
    (iteration env₁ w p).items = (iteration env₂ w p).items ∧
    (iteration env₁ w p).calls = (iteration env₂ w p).calls ∧
    ∀ rest : List ProductInfo,
      aggregate env₁ w (p :: rest) = aggregate env₁ (iteration env₁ w p) rest ∧
      aggregate env₂ w (p :: rest) = aggregate env₂ (iteration env₂ w p) rest ∧
      (aggregate env₁ w (p :: rest)).items = (aggregate env₂ w (p :: rest)).items := by
  refine ⟨?_, ?_, ?_, ?_, ?_, ?_, ?_⟩
  · simp [iteration, hs, hn]
  · simp [iteration, hs, hn]
  · simp [iteration_items, hs]
  · simp [iteration_items, hs]
  · simp [iteration_items]
  · simp [iteration_calls]
  · intro rest
    exact ⟨rfl, rfl, aggregate_items_congr env₁ env₂ (p :: rest) w w rfl⟩

/-- C7, witness: the same in-stock record under a `Push` that succeeds and under one
that fails; only the printed text differs. -/
theorem notifier_failure_witness :
    "/p/123" ∈ (iteration Env.pushOk World.init ⟨"/p/123", "RTX 3070", true⟩).items ∧
    "/p/123" ∈ (iteration Env.pushFails World.init ⟨"/p/123", "RTX 3070", true⟩).items ∧
    (iteration Env.pushOk World.init ⟨"/p/123", "RTX 3070", true⟩).items =
      (iteration Env.pushFails World.init ⟨"/p/123", "RTX 3070", true⟩).items ∧
    (aggregate Env.pushOk World.init
        [⟨"/p/123", "RTX 3070", true⟩, ⟨"/p/9", "RTX 3080", true⟩]).items =
      (aggregate Env.pushFails World.init
        [⟨"/p/123", "RTX 3070", true⟩, ⟨"/p/9", "RTX 3080", true⟩]).items ∧
    (iteration Env.pushOk World.init ⟨"/p/123", "RTX 3070", true⟩).stdout =
      "Jan 2, 3:04PM\nRTX 3070\n/p/123\n\n" ∧
    (iteration Env.pushFails World.init ⟨"/p/123", "RTX 3070", true⟩).stdout =
      "Jan 2, 3:04PM\nRTX 3070\n/p/123\n\ntoast: push failed\n" := by
  have h := notifier_failure_keeps_state Env.pushOk Env.pushFails World.init
    ⟨"/p/123", "RTX 3070", true⟩ rfl (by decide)
  exact ⟨h.2.2.1, h.2.2.2.1, h.2.2.2.2.1, (h.2.2.2.2.2.2 [⟨"/p/9", "RTX 3080", true⟩]).2.2,
    by decide, by decide⟩

/-- The trace of calls grows by one in an iteration exactly when the record is in
stock and its link unknown. -/
theorem iteration_calls_length (env : Env) (w : World) (p : ProductInfo) :
    (iteration env w p).calls.length = w.calls.length + 1 ↔
      p.inStock = true ∧ p.link ∉ w.items := by
  rw [iteration_calls]
  by_cases h : p.inStock = true ∧ p.link ∉ w.items
  · simp [h]
  · rw [if_neg h]; simp [h]

/-- C3 (at most one notification per availability run). From the empty `items`,
`notify` is called at record `i` exactly when that record is in stock and either no
earlier record has its link or the most recent earlier record with its link is out of
stock. For one link observed as out, in, in, in, out, in the calls happen at
positions 2 and 6 only; for `/p/123` observed as in, in, out, in they happen at
positions 1 and 4 only, `items` is `{/p/123}` after the first record and empty after
the third. -/
theorem one_notify_per_run (env : Env) :
    (∀ (ps : List ProductInfo) (i : Nat),
      notifiedAt env ps i = true ↔
        ∃ r, ps[i]? = some r ∧ r.inStock = true ∧
          ((∀ q ∈ ps.take i, q.link ≠ r.link) ∨
            ∃ a q b, ps.take i = a ++ q :: b ∧ q.link = r.link ∧ q.inStock = false ∧
              ∀ x ∈ b, x.link ≠ r.link)) ∧
    (∀ l t₁ t₂ t₃ t₄ t₅ t₆ : String,
      notifyPositions env [⟨l, t₁, false⟩, ⟨l, t₂, true⟩, ⟨l, t₃, true⟩, ⟨l, t₄, true⟩,
        ⟨l, t₅, false⟩, ⟨l, t₆, true⟩] = [2, 6] ∧
      (aggregate env World.init [⟨l, t₁, false⟩, ⟨l, t₂, true⟩, ⟨l, t₃, true⟩,
        ⟨l, t₄, true⟩, ⟨l, t₅, false⟩, ⟨l, t₆, true⟩]).calls = [⟨l, t₂⟩, ⟨l, t₆⟩]) ∧
    (∀ t₁ t₂ t₃ t₄ : String,
      notifyPositions env [⟨"/p/123", t₁, true⟩, ⟨"/p/123", t₂, true⟩,
        ⟨"/p/123", t₃, false⟩, ⟨"/p/123", t₄, true⟩] = [1, 4] ∧
      (aggregate env World.init [⟨"/p/123", t₁, true⟩]).items = {"/p/123"} ∧
      (aggregate env World.init [⟨"/p/123", t₁, true⟩, ⟨"/p/123", t₂, true⟩,
        ⟨"/p/123", t₃, false⟩]).items = ∅ ∧
      (aggregate env World.init [⟨"/p/123", t₁, true⟩, ⟨"/p/123", t₂, true⟩,
        ⟨"/p/123", t₃, false⟩, ⟨"/p/123", t₄, true⟩]).calls =
          [⟨"/p/123", t₁⟩, ⟨"/p/123", t₄⟩]) := by
  refine ⟨fun ps i => ?_, fun l t₁ t₂ t₃ t₄ t₅ t₆ => ?_, fun t₁ t₂ t₃ t₄ => ?_⟩
  · unfold notifiedAt
    rw [List.take_succ]
    cases hi : ps[i]? with
    | none => simp
    | some r =>
      simp only [Option.toList_some, aggregate_append, decide_eq_true_eq, Option.some.injEq,
        exists_eq_left']
      have hstep : aggregate env (aggregate env World.init (List.take i ps)) [r] =
          iteration env (aggregate env World.init (List.take i ps)) r := rfl
      rw [hstep, iteration_calls_length, not_mem_aggregate_items]
      simp only [World.init, Finset.not_mem_empty, not_false_eq_true, true_and, and_assoc]
      rw [or_comm]
  · simp [notifyPositions, notifiedAt, aggregate, iteration, notify_calls, notify_items,
      World.init, List.range_succ, List.filter_cons]
  · simp [notifyPositions, notifiedAt, aggregate, iteration, notify_calls, notify_items,
      World.init, List.range_succ, List.filter_cons]

/-! ## Order independence -/

/-- Whether `L` is a key after a run depends on the starting state only through
whether `L` is a key there. -/
theorem mem_aggregate_congr (env₁ env₂ : Env) (L : String) (ps : List ProductInfo)
    (w₁ w₂ : World) (h : L ∈ w₁.items ↔ L ∈ w₂.items) :
    L ∈ (aggregate env₁ w₁ ps).items ↔ L ∈ (aggregate env₂ w₂ ps).items := by
  rw [mem_aggregate_items, mem_aggregate_items, h]

/-- Whether `L` is a key after a run depends only on the records with link `L`. -/
theorem mem_aggregate_filter (env : Env) (L : String) (ps : List ProductInfo) (w : World) :
    L ∈ (aggregate env w ps).items ↔
      L ∈ (aggregate env w (ps.filter fun r => r.link = L)).items := by
  induction ps generalizing w with
  | nil => simp
  | cons p ps ih =>
    by_cases hl : p.link = L
    · rw [List.filter_cons_of_pos (by simpa using hl), aggregate_cons, aggregate_cons, ih]
    · rw [List.filter_cons_of_neg (by simpa using hl), aggregate_cons, ih]
      apply mem_aggregate_congr
      rw [mem_iteration_items]
      simp [hl]

/-- The number of occurrences of the call `c` in a trace of calls. -/
theorem count_call_of_ne (u t : String) (p : ProductInfo) (hl : p.link ≠ u)
    (c : Prop) [Decidable c] :
    List.count (NotifyCall.mk u t) (if c then [NotifyCall.mk p.link p.title] else []) = 0 := by
  split
  · rw [List.count_eq_zero]
    simp only [List.mem_singleton, NotifyCall.mk.injEq, not_and]
    intro h
    exact absurd h.symm hl
  · rfl

/-- The number of calls `notify(u, t)` after a run depends on the starting state only
through that number there and through whether `u` is a key. -/
theorem count_calls_congr (env : Env) (u t : String) (ps : List ProductInfo) (w₁ w₂ : World)
    (hm : u ∈ w₁.items ↔ u ∈ w₂.items)
    (hc : List.count (NotifyCall.mk u t) w₁.calls =
      List.count (NotifyCall.mk u t) w₂.calls) :
    List.count (NotifyCall.mk u t) (aggregate env w₁ ps).calls =
      List.count (NotifyCall.mk u t) (aggregate env w₂ ps).calls := by
  induction ps generalizing w₁ w₂ with
  | nil => simpa [aggregate_nil] using hc
  | cons p ps ih =>
    rw [aggregate_cons, aggregate_cons]
    apply ih
    · rw [mem_iteration_items, mem_iteration_items, hm]
    · rw [iteration_calls, iteration_calls, List.count_append, List.count_append, hc]
      congr 1
      by_cases hl : p.link = u
      · subst hl
        simp only [hm]
      · rw [count_call_of_ne u t p hl, count_call_of_ne u t p hl]

/-- The number of calls `notify(u, t)` after a run depends only on the records with
link `u`. -/
theorem count_calls_filter (env : Env) (u t : String) (ps : List ProductInfo) (w : World) :
    List.count (NotifyCall.mk u t) (aggregate env w ps).calls =
      List.count (NotifyCall.mk u t)
        (aggregate env w (ps.filter fun r => r.link = u)).calls := by
  induction ps generalizing w with
  | nil => simp
  | cons p ps ih =>
    by_cases hl : p.link = u
    · rw [List.filter_cons_of_pos (by simpa using hl), aggregate_cons, aggregate_cons, ih]
    · rw [List.filter_cons_of_neg (by simpa using hl), aggregate_cons, ← ih]
      apply count_calls_congr
      · rw [mem_iteration_items]
        simp [hl]
      · rw [iteration_calls, List.count_append, count_call_of_ne u t p hl]
        rfl

/-- Two sequences of records with the same records per link, in the same order, lead
to the same `items` and to the same calls of `notify` up to their order. -/
theorem aggregate_of_filter_eq (env : Env) (w : World) (rs₁ rs₂ : List ProductInfo)
    (h : ∀ L : String, (rs₁.filter fun r => r.link = L) = rs₂.filter fun r => r.link = L) :
    (aggregate env w rs₁).items = (aggregate env w rs₂).items ∧
    (aggregate env w rs₁).calls.Perm (aggregate env w rs₂).calls := by
  constructor
  · ext L
    rw [mem_aggregate_filter, h L, ← mem_aggregate_filter]
  · rw [List.perm_iff_count]
    rintro ⟨u, t⟩
    rw [count_calls_filter, h u, ← count_calls_filter]

/-- C10 (order independence across links). Two records with different links can be
processed in either order: the resulting `items` is the same and the calls of
`notify` are the same up to order. Hence two sequences of records that agree, for
every link, on the records with that link and on their order lead to the same `items`
and the same calls of `notify` counted with multiplicity. -/
theorem order_independence (env : Env) (w : World) :
    (∀ r₁ r₂ : ProductInfo, r₁.link ≠ r₂.link →
      (aggregate env w [r₁, r₂]).items = (aggregate env w [r₂, r₁]).items ∧
      (aggregate env w [r₁, r₂]).calls.Perm (aggregate env w [r₂, r₁]).calls) ∧
    (∀ rs₁ rs₂ : List ProductInfo,
      (∀ L : String, (rs₁.filter fun r => r.link = L) = rs₂.filter fun r => r.link = L) →
      (aggregate env w rs₁).items = (aggregate env w rs₂).items ∧
      (aggregate env w rs₁).calls.Perm (aggregate env w rs₂).calls) := by
  refine ⟨fun r₁ r₂ hne => ?_, fun rs₁ rs₂ h => aggregate_of_filter_eq env w rs₁ rs₂ h⟩
  apply aggregate_of_filter_eq
  intro L
  by_cases h1 : r₁.link = L <;> by_cases h2 : r₂.link = L
  · exact absurd (h1.trans h2.symm) hne
  · simp [List.filter_cons, h1, h2]
  · simp [List.filter_cons, h1, h2]
  · simp [List.filter_cons, h1, h2]

/-- C10, witness: two records with different links swapped, and two interleavings of
a stream for `/a` with a stream for `/b`. -/
theorem order_independence_witness :
    (aggregate Env.pushOk World.init [⟨"/a", "A", true⟩, ⟨"/b", "B", true⟩]).items =
      (aggregate Env.pushOk World.init [⟨"/b", "B", true⟩, ⟨"/a", "A", true⟩]).items ∧
    (aggregate Env.pushOk World.init [⟨"/a", "A", true⟩, ⟨"/b", "B", true⟩]).calls.Perm
      (aggregate Env.pushOk World.init [⟨"/b", "B", true⟩, ⟨"/a", "A", true⟩]).calls ∧
    (aggregate Env.pushOk World.init
        [⟨"/a", "A", true⟩, ⟨"/b", "B", true⟩, ⟨"/a", "A", false⟩, ⟨"/b", "B", true⟩]).items =
      (aggregate Env.pushOk World.init
        [⟨"/b", "B", true⟩, ⟨"/b", "B", true⟩, ⟨"/a", "A", true⟩, ⟨"/a", "A", false⟩]).items ∧
    (aggregate Env.pushOk World.init
        [⟨"/a", "A", true⟩, ⟨"/b", "B", true⟩, ⟨"/a", "A", false⟩, ⟨"/b", "B", true⟩]).calls.Perm
      (aggregate Env.pushOk World.init
        [⟨"/b", "B", true⟩, ⟨"/b", "B", true⟩, ⟨"/a", "A", true⟩, ⟨"/a", "A", false⟩]).calls := by
  have h₁ := (order_independence Env.pushOk World.init).1 ⟨"/a", "A", true⟩ ⟨"/b", "B", true⟩
    (by decide)
  have h₂ := (order_independence Env.pushOk World.init).2
    [⟨"/a", "A", true⟩, ⟨"/b", "B", true⟩, ⟨"/a", "A", false⟩, ⟨"/b", "B", true⟩]
    [⟨"/b", "B", true⟩, ⟨"/b", "B", true⟩, ⟨"/a", "A", true⟩, ⟨"/a", "A", false⟩]
    (by
      intro L
      by_cases ha : "/a" = L <;> by_cases hb : "/b" = L
      · exact absurd (ha.trans hb.symm) (by decide)
      · simp [List.filter_cons, ha, hb]
      · simp [List.filter_cons, ha, hb]
      · simp [List.filter_cons, ha, hb])
  exact ⟨h₁.1, h₁.2, h₂.1, h₂.2⟩

/-! ## The patterns `&sid=.+$` and `/ref=.+$` -/

theorem sidReg_eq : sidReg = litTail "&sid=".data := rfl

theorem refReg_eq : refReg = litTail "/ref=".data := rfl

/-- The remainders of a literal text: the text is a prefix or there is no match. -/
theorem ends_literal (lit s : List Char) :
    Regex.ends (lit.foldr (fun c r => Regex.cat (Regex.char c) r) Regex.empty) s =
      if lit.isPrefixOf s then [s.drop lit.length] else [] := by
  induction lit generalizing s with
  | nil => simp [Regex.ends]
  | cons c lit ih =>
    cases s with
    | nil => simp [Regex.ends]
    | cons x t =>
      simp only [List.foldr_cons, Regex.ends, List.isPrefixOf, List.length_cons, List.drop_succ_cons]
      by_cases hx : x = c
      · subst hx
        simp [ih]
      · have hx' : ¬ c = x := fun h => hx h.symm
        simp [hx, hx']

theorem ends_dot_cons (x : Char) (t : List Char) :
    Regex.ends .anyNotNL (x :: t) = if x = '\n' then [] else [t] := rfl

theorem ends_dot_nil : Regex.ends .anyNotNL [] = [] := rfl

theorem ends_endText (s : List Char) :
    Regex.ends .endText s = if s = [] then [[]] else [] := by
  cases s <;> rfl

/-- The remainders of `.+$`: the whole text, when it is not empty and has no newline. -/
theorem ends_plus_dot_end (fuel : Nat) (s : List Char) (hf : s.length < fuel) :
    (Regex.plusEnds (fun t => Regex.ends .anyNotNL t) fuel s).flatMap
        (fun t => Regex.ends .endText t) =
      if !s.isEmpty && !s.contains '\n' then [[]] else [] := by
  induction fuel generalizing s with
  | zero => omega
  | succ n ih =>
    cases s with
    | nil =>
      rw [Regex.plusEnds]
      simp [ends_dot_nil]
    | cons x t =>
      rw [Regex.plusEnds]
      simp only [ends_dot_cons]
      by_cases hx : x = '\n'
      · subst hx
        simp
      · have hlen : t.length < n := by simpa using hf
        have hx' : ¬ '\n' = x := fun h => hx h.symm
        simp only [hx, if_false, List.flatMap_cons, List.flatMap_nil, List.append_nil,
          List.length_cons, Nat.lt_succ_self, if_true, List.flatMap_append]
        rw [ih t hlen, ends_endText]
        cases t with
        | nil => simp [hx']
        | cons y t' => simp [hx', hx]

/-- The pattern `lit.+$` matches at the head of `s` exactly when `tailMatch` says so,
and then up to the end of the text. -/
theorem matchAt_litTail (lit s : List Char) :
    (litTail lit).matchAt s = if tailMatch lit s then some [] else none := by
  unfold Regex.matchAt litTail
  rw [Regex.ends, ends_literal]
  by_cases hp : lit.isPrefixOf s = true
  · simp only [hp, if_true, List.flatMap_cons, List.flatMap_nil, List.append_nil]
    rw [Regex.ends, Regex.ends, ends_plus_dot_end _ _ (Nat.lt_succ_self _)]
    simp only [tailMatch, hp, Bool.true_and]
    split <;> rfl
  · simp [tailMatch, hp]

theorem tailMatch_nil (lit : List Char) : tailMatch lit [] = false := by
  simp [tailMatch]

/-- What `tailMatch` decides. -/
theorem tailMatch_iff (lit s : List Char) :
    tailMatch lit s = true ↔ ∃ u, s = lit ++ u ∧ u ≠ [] ∧ '\n' ∉ u := by
  simp only [tailMatch, Bool.and_eq_true, Bool.not_eq_true', List.isPrefixOf_iff_prefix]
  constructor
  · rintro ⟨⟨⟨u, rfl⟩, h2⟩, h3⟩
    rw [List.drop_left] at h2 h3
    refine ⟨u, rfl, ?_, ?_⟩
    · intro h
      simp [h] at h2
    · intro h
      have : u.contains '\n' = true := by simpa using h
      rw [this] at h3
      exact Bool.noConfusion h3
  · rintro ⟨u, rfl, h2, h3⟩
    rw [List.drop_left]
    refine ⟨⟨⟨u, rfl⟩, ?_⟩, ?_⟩
    · cases u with
      | nil => exact absurd rfl h2
      | cons a u => rfl
    · cases h : u.contains '\n' with
      | false => rfl
      | true => exact absurd (by simpa using h) h3

theorem replaceAllFrom_nil (re : Regex) (fuel : Nat) (abut : Bool)
    (h : re.matchAt [] = none) : re.replaceAllFrom [] fuel abut [] = [] := by
  cases fuel with
  | zero => rfl
  | succ n =>
    unfold Regex.replaceAllFrom
    rw [h]

/-- Replacing the matches of `lit.+$` by the empty text cuts the source at the first
match. -/
theorem replaceAllFrom_litTail (lit : List Char) (fuel : Nat) (abut : Bool) (s : List Char)
    (hf : s.length < fuel) :
    (litTail lit).replaceAllFrom [] fuel abut s = stripTail lit s := by
  induction fuel generalizing s abut with
  | zero => omega
  | succ n ih =>
    cases s with
    | nil =>
      unfold Regex.replaceAllFrom
      rw [matchAt_litTail, tailMatch_nil]
      rfl
    | cons c t =>
      have hlen : t.length < n := by simpa using hf
      unfold Regex.replaceAllFrom
      rw [matchAt_litTail, stripTail]
      by_cases hm : tailMatch lit (c :: t) = true
      · have hnil : (litTail lit).matchAt [] = none := by
          rw [matchAt_litTail, tailMatch_nil]; rfl
        simp [hm, replaceAllFrom_nil _ _ _ hnil]
      · simp [hm, ih false t hlen]

/-- The method `ReplaceAllString(src, "")` of the pattern `lit.+$`. -/
theorem replaceAllString_litTail (lit : List Char) (src : String) :
    (litTail lit).replaceAllString src "" = ⟨stripTail lit src.data⟩ := by
  unfold Regex.replaceAllString
  rw [show ("" : String).data = [] from rfl, replaceAllFrom_litTail _ _ _ _ (Nat.lt_succ_self _)]

/-- The cut text is a prefix of the source, and what is cut off is empty or a match. -/
theorem stripTail_split (lit s : List Char) :
    ∃ m, s = stripTail lit s ++ m ∧ (m = [] ∨ tailMatch lit m = true) := by
  induction s with
  | nil => exact ⟨[], rfl, Or.inl rfl⟩
  | cons c t ih =>
    rw [stripTail]
    by_cases hm : tailMatch lit (c :: t) = true
    · exact ⟨c :: t, by simp [hm], Or.inr hm⟩
    · obtain ⟨m, h1, h2⟩ := ih
      refine ⟨m, ?_, h2⟩
      simp only [hm, Bool.false_eq_true, if_false, List.cons_append]
      rw [← h1]

/-- A match at the head of the cut text is a match at the head of the source. -/
theorem tailMatch_of_stripTail (lit : List Char) (hlit : '\n' ∉ lit) (c : Char)
    (t : List Char) (h : tailMatch lit (c :: stripTail lit t) = true) :
    tailMatch lit (c :: t) = true := by
  obtain ⟨m, h1, h2⟩ := stripTail_split lit t
  rw [tailMatch_iff] at h ⊢
  obtain ⟨u, hu, hne, hnl⟩ := h
  refine ⟨u ++ m, ?_, ?_, ?_⟩
  · rw [← List.append_assoc, ← hu, List.cons_append, ← h1]
  · simp [hne]
  · rcases h2 with rfl | h2
    · simpa using hnl
    · rw [tailMatch_iff] at h2
      obtain ⟨v, rfl, _, hv⟩ := h2
      simp [hnl, hlit, hv]

/-- Cutting twice is cutting once. -/
theorem stripTail_idem (lit : List Char) (hlit : '\n' ∉ lit) (s : List Char) :
    stripTail lit (stripTail lit s) = stripTail lit s := by
  induction s with
  | nil => rfl
  | cons c t ih =>
    by_cases hm : tailMatch lit (c :: t) = true
    · have : stripTail lit (c :: t) = [] := by simp [stripTail, hm]
      rw [this]
      rfl
    · have h1 : stripTail lit (c :: t) = c :: stripTail lit t := by simp [stripTail, hm]
      have h2 : ¬ tailMatch lit (c :: stripTail lit t) = true :=
        fun h => hm (tailMatch_of_stripTail lit hlit c t h)
      rw [h1, stripTail]
      simp [h2, ih]

/-- C4 (canonicalisation is idempotent for the `&sid=` source). Applying the
`linkTransform` of the canadacomputers source, `sidReg.ReplaceAllString(x, "")`, twice
gives the same link as applying it once, for every string `x`. -/
theorem sid_canonicalization_idempotent (x : String) :
    canadacomputersLinkTransform (canadacomputersLinkTransform x) =
      canadacomputersLinkTransform x := by
  unfold canadacomputersLinkTransform
  rw [sidReg_eq, replaceAllString_litTail, replaceAllString_litTail]
  simp only
  rw [stripTail_idem _ (by decide)]

/-- No match of `/ref=.+$` begins inside the host that the amazon source prepends. -/
theorem stripTail_ref_host (y : List Char) :
    stripTail "/ref=".data ("https://www.amazon.ca".data ++ y) =
      "https://www.amazon.ca".data ++ stripTail "/ref=".data y := by
  have hh : "https://www.amazon.ca".data =
      ['h', 't', 't', 'p', 's', ':', '/', '/', 'w', 'w', 'w', '.', 'a', 'm', 'a', 'z', 'o',
        'n', '.', 'c', 'a'] := rfl
  have hl : "/ref=".data = ['/', 'r', 'e', 'f', '='] := rfl
  rw [hh, hl]
  simp [stripTail, tailMatch, List.isPrefixOf]

theorem amazonLinkTransform_data (x : String) :
    (amazonLinkTransform x).data =
      "https://www.amazon.ca".data ++ stripTail "/ref=".data x.data := by
  unfold amazonLinkTransform
  rw [refReg_eq, replaceAllString_litTail, String.data_append]

/-- C5, corrected. For every raw link `x`: stripping the `/ref=` suffix,
`refReg.ReplaceAllString(x, "")`, is idempotent; the `linkTransform` of the amazon
source is the host `https://www.amazon.ca` followed by the stripped link; and applying
that `linkTransform` to its own result prepends the host once more, so the result
changes. -/
theorem ref_canonicalization (x : String) :
    refReg.replaceAllString (refReg.replaceAllString x "") "" =
      refReg.replaceAllString x "" ∧
    amazonLinkTransform x = "https://www.amazon.ca" ++ refReg.replaceAllString x "" ∧
    amazonLinkTransform (amazonLinkTransform x) =
      "https://www.amazon.ca" ++ amazonLinkTransform x ∧
    amazonLinkTransform (amazonLinkTransform x) ≠ amazonLinkTransform x := by
  have h3 : amazonLinkTransform (amazonLinkTransform x) =
      "https://www.amazon.ca" ++ amazonLinkTransform x := by
    apply String.ext
    rw [amazonLinkTransform_data, String.data_append, amazonLinkTransform_data,
      stripTail_ref_host, stripTail_idem _ (by decide)]
  refine ⟨?_, rfl, h3, ?_⟩
  · rw [refReg_eq, replaceAllString_litTail, replaceAllString_litTail]
    simp only
    rw [stripTail_idem _ (by decide)]
  · rw [h3]
    intro h
    have hlen := congrArg String.length h
    rw [String.length_append] at hlen
    have : ("https://www.amazon.ca" : String).length = 21 := by decide
    omega

/-- C5, counterexample. On the link `/dp/B08X/ref=sr_1_1` the `linkTransform` of the
amazon source is not idempotent. -/
theorem ref_canonicalization_not_idempotent :
    amazonLinkTransform "/dp/B08X/ref=sr_1_1" = "https://www.amazon.ca/dp/B08X" ∧
    amazonLinkTransform (amazonLinkTransform "/dp/B08X/ref=sr_1_1") =
      "https://www.amazon.cahttps://www.amazon.ca/dp/B08X" ∧
    amazonLinkTransform (amazonLinkTransform "/dp/B08X/ref=sr_1_1") ≠
      amazonLinkTransform "/dp/B08X/ref=sr_1_1" := by
  decide

/-! ## Title truncation -/

/-- The loop of `truncateString` with a non-negative bound keeps the runes seen and at
most `n` more. -/
theorem truncateLoop_eq (n : Nat) (seen rest : List Char) :
    truncateLoop (n : Int) seen rest = seen.reverse ++ rest.take n := by
  induction rest generalizing n seen with
  | nil => simp [truncateLoop]
  | cons c rest ih =>
    cases n with
    | zero => simp [truncateLoop]
    | succ n =>
      have h1 : ¬ (((n + 1 : Nat) : Int) - 1 < 0) := by omega
      have h2 : ((n + 1 : Nat) : Int) - 1 = (n : Int) := by omega
      rw [truncateLoop, if_neg h1, h2, ih]
      simp

theorem sprintfPrecS_data (prec : Nat) (s : String) :
    (sprintfPrecS prec s).data = s.data.take prec := by
  simp [sprintfPrecS, truncateLoop_eq]

/-- C8 (the title is truncated when notifying, not when extracting). The title that
`notify` prints and puts in the toast is the first 80 runes of the title it is given:
the title itself when that has at most 80 runes, and never more than 80 runes. The
url is printed whole. The title that `visit` stores in a record is the whole text of
what `linkSel` matches. -/
theorem title_truncated_at_notification (env : Env) (w : World) (url t : String) :
    (sprintfPrecS 80 t).data = t.data.take 80 ∧
    (t.length ≤ 80 → sprintfPrecS 80 t = t) ∧
    (80 < t.length → (sprintfPrecS 80 t).length = 80 ∧ sprintfPrecS 80 t ≠ t) ∧
    (sprintfPrecS 80 t).length ≤ 80 ∧
    (notify env w url t).toasts = w.toasts ++
      [{ appID := "GPU Scraper", title := sprintfPrecS 80 t,
         activationArguments := escapeAmp url }] ∧
    (notify env w url t).stdout =
      w.stdout ++ env.now w.calls.length ++ "\n" ++ sprintfPrecS 80 t ++ "\n" ++ url ++ "\n\n" ++
        (match env.push w.calls.length
            { appID := "GPU Scraper", title := sprintfPrecS 80 t,
              activationArguments := escapeAmp url } with
          | none => ""
          | some err => err ++ "\n") ∧
    (∀ (Node : Type) (dom : Dom Node) (config : SearchConfig Node) (s : Node),
      (visitEntry dom config s).title = Selection.text dom (dom.find config.linkSel s) ∧
      ∀ n, dom.find config.linkSel s = [n] → (visitEntry dom config s).title = dom.text n) := by
  have hd := sprintfPrecS_data 80 t
  have hlen : (sprintfPrecS 80 t).length = min 80 t.length := by
    rw [String.length, hd, List.length_take, String.length]
  refine ⟨hd, ?_, ?_, ?_, rfl, ?_, ?_⟩
  · intro h
    apply String.ext
    rw [hd, List.take_of_length_le h]
  · intro h
    refine ⟨by omega, fun heq => ?_⟩
    rw [heq] at hlen
    omega
  · omega
  · unfold notify
    simp only
    cases env.push w.calls.length _ with
    | none => simp
    | some err => simp [String.append_assoc]
  · intro Node dom config s
    refine ⟨rfl, fun n hn => ?_⟩
    show Selection.text dom (dom.find config.linkSel s) = dom.text n
    rw [hn]
    simp [Selection.text, String.join]

/-- C8, witness: a short title is kept and a title of 100 runes is cut to 80. -/
theorem title_truncated_witness :
    sprintfPrecS 80 "RTX 3070 Founders Edition" = "RTX 3070 Founders Edition" ∧
    (sprintfPrecS 80 ⟨List.replicate 100 'x'⟩).length = 80 ∧
    (visitEntry Dom.samplePage (amazon Dom.samplePage) 2).title = "MSI RTX 3070 Gaming" :=
  ⟨(title_truncated_at_notification Env.pushOk World.init "/p/123"
      "RTX 3070 Founders Edition").2.1 (by decide),
    ((title_truncated_at_notification Env.pushOk World.init "/p/123"
      ⟨List.replicate 100 'x'⟩).2.2.1 (by decide)).1,
    ((title_truncated_at_notification Env.pushOk World.init "/p/123" "").2.2.2.2.2.2
      Nat Dom.samplePage (amazon Dom.samplePage) 2).2 4 (by decide)⟩

/-- One round of `visit` sends the specified record for each entry. -/
theorem visitEntry_eq_entrySpec {Node : Type} (dom : Dom Node) (config : SearchConfig Node)
    (s : Node) : visitEntry dom config s = entrySpec dom config s := by
  unfold visitEntry entrySpec Selection.attr Selection.text
  cases hf : dom.find config.linkSel s with
  | nil => rfl
  | cons n l =>
    cases ha : dom.attr n "href" <;> simp [ha]

/-- C9 (shape of the extraction result). One round of `visit` on a fetched document
sends one record per child of each element matched by `resultsSel`, in document order,
each being the record of the specification for that child: with a single matched
element, the records are those of its children, one each and in their order; when
`resultsSel` matches nothing, nothing is sent. -/
theorem extraction_shape {Node : Type} (dom : Dom Node) (config : SearchConfig Node)
    (doc : Node) :
    visitCycle dom config doc =
      (dom.find config.resultsSel doc).flatMap
        (fun e => (dom.children e).map (entrySpec dom config)) ∧
    (∀ e, dom.find config.resultsSel doc = [e] →
      visitCycle dom config doc = (dom.children e).map (entrySpec dom config) ∧
      (visitCycle dom config doc).length = (dom.children e).length ∧
      ∀ i : Nat, (visitCycle dom config doc)[i]? =
        Option.map (entrySpec dom config) (dom.children e)[i]?) ∧
    (dom.find config.resultsSel doc = [] → visitCycle dom config doc = []) := by
  have hfun : visitEntry dom config = entrySpec dom config :=
    funext (visitEntry_eq_entrySpec dom config)
  have h1 : visitCycle dom config doc =
      (dom.find config.resultsSel doc).flatMap
        (fun e => (dom.children e).map (entrySpec dom config)) := by
    unfold visitCycle onHTML
    rw [hfun]
  refine ⟨h1, fun e he => ?_, fun he => ?_⟩
  · have h2 : visitCycle dom config doc = (dom.children e).map (entrySpec dom config) := by
      rw [h1, he]; simp
    refine ⟨h2, ?_, fun i => ?_⟩
    · rw [h2, List.length_map]
    · rw [h2, List.getElem?_map]
  · rw [h1, he]; rfl

/-- C9, witness: the sample page read with the amazon configuration gives two
records, in the order of the entries; a node without a result list gives none. -/
theorem extraction_shape_witness :
    visitCycle Dom.samplePage (amazon Dom.samplePage) 0 =
      [⟨"https://www.amazon.ca/dp/B08X", "MSI RTX 3070 Gaming", true⟩,
       ⟨"https://www.amazon.ca", "GT 710", false⟩] ∧
    visitCycle Dom.samplePage (amazon Dom.samplePage) 9 = [] := by
  have h := extraction_shape Dom.samplePage (amazon Dom.samplePage) 0
  have h9 := extraction_shape Dom.samplePage (amazon Dom.samplePage) 9
  refine ⟨?_, h9.2.2 (by decide)⟩
  rw [(h.2.1 1 (by decide)).1]
  decide

/-- Without an `href`, `Selection.Attr` yields the empty string. -/
theorem attr_of_missing {Node : Type} (dom : Dom Node) (sel : Selection Node) (name : String)
    (h : (Selection.attr dom sel name).2 = false) : (Selection.attr dom sel name).1 = "" := by
  unfold Selection.attr at h ⊢
  cases sel with
  | nil => rfl
  | cons n l =>
    cases ha : dom.attr n name with
    | none => simp [ha]
    | some v => simp [ha] at h

/-- C6, corrected. When the link node of an entry has no `href`, the link of the
record is what `linkTransform` makes of the empty string, and the empty string itself
when there is no `linkTransform`: the empty string for the newegg and canadacomputers
sources, and `https://www.amazon.ca` for the amazon source. -/
theorem missing_href_link {Node : Type} (dom : Dom Node) :
    (∀ (config : SearchConfig Node) (s : Node),
      (Selection.attr dom (dom.find config.linkSel s) "href").2 = false →
      (visitEntry dom config s).link =
        match config.linkTransform with
        | some f => f ""
        | none => "") ∧
    (∀ s : Node, (Selection.attr dom (dom.find (newegg dom).linkSel s) "href").2 = false →
      (visitEntry dom (newegg dom) s).link = "") ∧
    (∀ s : Node,
      (Selection.attr dom (dom.find (canadacomputers dom).linkSel s) "href").2 = false →
      (visitEntry dom (canadacomputers dom) s).link = "") ∧
    (∀ s : Node, (Selection.attr dom (dom.find (amazon dom).linkSel s) "href").2 = false →
      (visitEntry dom (amazon dom) s).link = "https://www.amazon.ca") := by
  have hgen : ∀ (config : SearchConfig Node) (s : Node),
      (Selection.attr dom (dom.find config.linkSel s) "href").2 = false →
      (visitEntry dom config s).link =
        match config.linkTransform with
        | some f => f ""
        | none => "" := by
    intro config s h
    have h1 := attr_of_missing dom _ _ h
    unfold visitEntry
    simp only [h1]
  refine ⟨hgen, fun s h => ?_, fun s h => ?_, fun s h => ?_⟩
  · rw [hgen _ s h]; rfl
  · rw [hgen _ s h]
    show canadacomputersLinkTransform "" = ""
    decide
  · rw [hgen _ s h]
    show amazonLinkTransform "" = "https://www.amazon.ca"
    decide

/-- C6, witness: on the sample page the second entry has no `href`; read as an amazon
page its link is the bare host, read with the other two sources it is empty. -/
theorem missing_href_link_witness :
    (visitEntry Dom.samplePage (amazon Dom.samplePage) 3).link = "https://www.amazon.ca" ∧
    (visitEntry Dom.samplePage (newegg Dom.samplePage) 3).link = "" ∧
    (visitEntry Dom.samplePage (canadacomputers Dom.samplePage) 3).link = "" ∧
    (visitEntry Dom.samplePage (newegg Dom.samplePage) 3).link =
      match (newegg Dom.samplePage).linkTransform with
      | some f => f ""
      | none => "" :=
  ⟨(missing_href_link Dom.samplePage).2.2.2 3 (by decide),
    (missing_href_link Dom.samplePage).2.1 3 (by decide),
    (missing_href_link Dom.samplePage).2.2.1 3 (by decide),
    (missing_href_link Dom.samplePage).1 (newegg Dom.samplePage) 3 (by decide)⟩

/-- C6, counterexample. On the sample page the link node of the second entry has no
`href`, and the record of the amazon source for it has a link that is not empty. -/
theorem missing_href_link_not_empty :
    Selection.attr Dom.samplePage
      (Dom.samplePage.find (amazon Dom.samplePage).linkSel 3) "href" = ("", false) ∧
    (visitEntry Dom.samplePage (amazon Dom.samplePage) 3).link = "https://www.amazon.ca" ∧
    (visitEntry Dom.samplePage (amazon Dom.samplePage) 3).link ≠ "" := by
  decide

end GpuScraper
